import Mathlib

/-!
# Verification of the trase chart-rendering core

Shallow embedding of the trase repository's computational core:
* `round_off` from `src/Vector.hpp` (significant-digit rounding),
* `Axis::calculate_num_ticks` and `Axis::update_tick_information` from
  `src/frontend/Axis.cpp`,
* the `Points` series renderer (`draw_frames`, `draw_plot`) from
  `src/frontend/Points.tcc`.

Machine `float` arithmetic is embedded as exact rational arithmetic (`ℚ`);
`std::floor`/`std::ceil` become `Int.floor`/`Int.ceil`, and `std::pow(10, e)`
with an integer exponent becomes `zpow`.  Fallible accesses (out-of-bounds
`std::vector` indexing) are embedded in the `Option` monad.
-/

namespace Trase

/-- The digit-counting loop of `round_off` (`src/Vector.hpp`):
`for (i = 0; tmp >= 1; ++i) tmp /= 10;` — the number of iterations until the
running value drops below 1. -/
def countDigits (q : ℚ) : ℕ :=
  if 1 ≤ q then countDigits (q / 10) + 1 else 0
termination_by ⌊q⌋₊
decreasing_by
  have h1 : (1 : ℚ) ≤ q := by assumption
  have h10 : ⌊q / 10⌋₊ = ⌊q⌋₊ / 10 := by
    have := Nat.floor_div_nat q 10
    simpa using this
  have hq1 : 1 ≤ ⌊q⌋₊ := Nat.le_floor (by exact_mod_cast h1)
  calc ⌊q / 10⌋₊ = ⌊q⌋₊ / 10 := h10
    _ < ⌊q⌋₊ := Nat.div_lt_self (by omega) (by norm_num)

/-- One element of `round_off` (`src/Vector.hpp` lines 584–601): count the
digits left of the decimal point, then round half-up at precision
`10^(n - i)`:  `num[j] = floor(num[j] * d + 0.5) / d` with `d = pow(10, n-i)`. -/
def round_off_elem (v : ℚ) (n : ℤ) : ℚ :=
  let i : ℤ := countDigits v
  let d : ℚ := (10 : ℚ) ^ (n - i)
  (⌊v * d + 1/2⌋ : ℚ) / d

/-- `round_off` on a whole vector (`template <typename T, int N> Vector<T,N>
round_off(const Vector<T,N> &x, int n)`): element-wise significant-digit
rounding.  The fixed-size `Vector<T,N>` is embedded as a list of rationals. -/
def round_off (x : List ℚ) (n : ℤ) : List ℚ :=
  x.map (fun v => round_off_elem v n)

/-! ## Axis (`src/frontend/Axis.cpp`) -/

/-- An axis-aligned box (`bfloat2_t`): a pair of corner vectors. -/
structure Box2 where
  bmin : ℚ × ℚ
  bmax : ℚ × ℚ

/-- `bfloat2_t::delta()`, x component. -/
def Box2.deltax (b : Box2) : ℚ := b.bmax.1 - b.bmin.1

/-- `bfloat2_t::delta()`, y component. -/
def Box2.deltay (b : Box2) : ℚ := b.bmax.2 - b.bmin.2

/-- The axis state used by tick computation: the (x, y) components of
`m_limits`, the pixel viewport `m_pixels`, `m_sig_digits`, and the requested
tick counts `m_nx_ticks` / `m_ny_ticks` (`0` meaning auto). -/
structure AxisState where
  limits : Box2
  pixels : Box2
  sig_digits : ℤ
  nx_ticks : ℤ
  ny_ticks : ℤ

/-- `static_cast<int>` applied to a float: truncation toward zero. -/
def truncInt (q : ℚ) : ℤ := if q < 0 then ⌈q⌉ else ⌊q⌋

/-- `Axis::calculate_num_ticks()` (`src/frontend/Axis.cpp` lines 125–144). -/
def calculate_num_ticks (a : AxisState) : ℚ × ℚ :=
  if 0 < a.nx_ticks ∧ 0 < a.ny_ticks then ((a.nx_ticks : ℚ), (a.ny_ticks : ℚ))
  else
    let pix_ratio := a.pixels.deltax / a.pixels.deltay
    if 0 < a.nx_ticks then
      ((a.nx_ticks : ℚ), ((⌊(a.nx_ticks : ℚ) / pix_ratio⌋ : ℤ) : ℚ))
    else if 0 < a.ny_ticks then
      (((⌊(a.ny_ticks : ℚ) * pix_ratio⌋ : ℤ) : ℚ), (a.ny_ticks : ℚ))
    else (((⌊(5 : ℚ) * pix_ratio⌋ : ℤ) : ℚ), 5)

/-- The tick-count rule as the specification words it (for comparison with
`calculate_num_ticks`): the requested pair verbatim when both are requested;
`(x, ⌊x/r⌋)` when only x is requested; `(⌊y·r⌋, y)` when only y is requested;
`(⌊5·r⌋, 5)` when neither, with `r` the viewport width/height ratio. -/
def calculate_num_ticks_from_spec (a : AxisState) : ℚ × ℚ :=
  let r := a.pixels.deltax / a.pixels.deltay
  if 0 < a.nx_ticks ∧ 0 < a.ny_ticks then ((a.nx_ticks : ℚ), (a.ny_ticks : ℚ))
  else if 0 < a.nx_ticks then ((a.nx_ticks : ℚ), ((⌊(a.nx_ticks : ℚ) / r⌋ : ℤ) : ℚ))
  else if 0 < a.ny_ticks then (((⌊(a.ny_ticks : ℚ) * r⌋ : ℤ) : ℚ), (a.ny_ticks : ℚ))
  else (((⌊(5 : ℚ) * r⌋ : ℤ) : ℚ), 5)

/-- Modelled from the spec: `Axis::to_display<Aesthetic::x>` lives in
`Axis.hpp`, which is not among the sources; the spec describes it as the
affine map from the data-space limits to the pixel viewport on that axis. -/
def to_display_x (a : AxisState) (v : ℚ) : ℚ :=
  a.pixels.bmin.1 + (v - a.limits.bmin.1) / a.limits.deltax * a.pixels.deltax

/-- Modelled from the spec: `Axis::to_display<Aesthetic::y>` (not among the
sources); the y mapping is flipped, so the data-space maximum maps to the
smaller pixel coordinate (screen top). -/
def to_display_y (a : AxisState) (v : ℚ) : ℚ :=
  a.pixels.bmax.2 - (v - a.limits.bmin.2) / a.limits.deltay * a.pixels.deltay

/-- `TickInfo`: parallel (value, pixel position) sequences per axis. -/
structure TickInfo where
  x_val : List ℚ
  x_pos : List ℚ
  y_val : List ℚ
  y_pos : List ℚ

/-- `Axis::update_tick_information()` (`src/frontend/Axis.cpp` lines 78–123):
resolve tick counts, substitute `[0,1]` for an inverted axis, compute the
rounded spacing `round_off(delta/n, sig_digits)`, align the first tick at
`ceil(min/spacing)·spacing`, convert to pixels, and emit the tick lists
(the per-axis degenerate-limits loop is written as per-component `if`s). -/
def update_tick_information (a : AxisState) : TickInfo :=
  let n_ticks := calculate_num_ticks a
  let xmin : ℚ := if a.limits.bmax.1 < a.limits.bmin.1 then 0 else a.limits.bmin.1
  let xmax : ℚ := if a.limits.bmax.1 < a.limits.bmin.1 then 1 else a.limits.bmax.1
  let ymin : ℚ := if a.limits.bmax.2 < a.limits.bmin.2 then 0 else a.limits.bmin.2
  let ymax : ℚ := if a.limits.bmax.2 < a.limits.bmin.2 then 1 else a.limits.bmax.2
  let tick_dx_x := round_off_elem ((xmax - xmin) / n_ticks.1) a.sig_digits
  let tick_dx_y := round_off_elem ((ymax - ymin) / n_ticks.2) a.sig_digits
  let tick_min_x := (⌈xmin / tick_dx_x⌉ : ℚ) * tick_dx_x
  let tick_min_y := (⌈ymin / tick_dx_y⌉ : ℚ) * tick_dx_y
  let tick_dx_pixels_x := tick_dx_x * a.pixels.deltax / (xmax - xmin)
  let tick_dx_pixels_y := tick_dx_y * a.pixels.deltay / (ymax - ymin)
  let tick_min_pixels_x := to_display_x a tick_min_x
  let tick_min_pixels_y := to_display_y a tick_min_y
  { x_val := (List.range (truncInt n_ticks.1).toNat).map
      (fun i => tick_min_x + (i : ℚ) * tick_dx_x)
    x_pos := (List.range (truncInt n_ticks.1).toNat).map
      (fun i => tick_min_pixels_x + (i : ℚ) * tick_dx_pixels_x)
    y_val := (List.range (truncInt n_ticks.2).toNat).map
      (fun i => tick_min_y + (i : ℚ) * tick_dx_y)
    y_pos := (List.range (truncInt n_ticks.2).toNat).map
      (fun i => tick_min_pixels_y - (i : ℚ) * tick_dx_pixels_y) }

/-! ## Points series renderer (`src/frontend/Points.tcc`) -/

/-- One registered data frame (`DataWithAesthetic`): the x and y channels are
mandatory, color and size optional (`none` embeds an absent aesthetic, which
the `check_aesthetic` try/catch probe detects). -/
structure Frame where
  x : List ℚ
  y : List ℚ
  color : Option (List ℚ)
  size : Option (List ℚ)

/-- `DataWithAesthetic::rows()`. -/
def Frame.rows (f : Frame) : ℕ := f.x.length

/-- A `Points` series: `m_data` and `m_times`. -/
structure PointsState where
  data : List Frame
  times : List ℚ

/-- The interpolation state `m_frame_info`: `frame_above` plus the two blend
weights. -/
structure FrameInfo where
  frame_above : ℤ
  w1 : ℚ
  w2 : ℚ
deriving DecidableEq

/-- `m_data[k]` for an `int` index: a `std::vector` access that is only valid
in bounds, embedded as an `Option`. -/
def dataAt (s : PointsState) (k : ℤ) : Option Frame :=
  if k < 0 then none else s.data[k.toNat]?

/-- Indexing a per-aesthetic column iterator (`begin<A>()[i]`); rows are
assumed in bounds (the source treats the first frame's row count as
authoritative and performs no bounds check). -/
def column (l : List ℚ) (i : ℕ) : ℚ := l.getD i 0

/-- `check_aesthetic<Aesthetic::color>`: the try/catch capability probe. -/
def check_aesthetic_color (f : Frame) : Bool := f.color.isSome

/-- `check_aesthetic<Aesthetic::size>`: the try/catch capability probe. -/
def check_aesthetic_size (f : Frame) : Bool := f.size.isSome

/-- The pixel-space 4-vector `Vector<float,4>` built by the `to_pixel`
lambdas: position, colormap coordinate and radius. -/
structure Pix4 where
  px : ℚ
  py : ℚ
  pc : ℚ
  ps : ℚ

/-- `w1 * p + w2 * q` on pixel 4-vectors (element-wise). -/
def Pix4.blend (w1 : ℚ) (p : Pix4) (w2 : ℚ) (q : Pix4) : Pix4 :=
  ⟨w1 * p.px + w2 * q.px, w1 * p.py + w2 * q.py,
   w1 * p.pc + w2 * q.pc, w1 * p.ps + w2 * q.ps⟩

/-- The `to_pixel` lambda of `Points::draw_frames` / `Points::draw_plot`:
transform x and y through the axis and color/size through their scales, or
substitute the fixed defaults 0 (scale bottom) and 1 (radius) when the
aesthetic is absent.  The four `to_display` transforms are passed as
parameters (they live in `Axis.hpp`, outside the sources). -/
def to_pixel (tdx tdy tdc tds : ℚ → ℚ) (have_color have_size : Bool)
    (x y c s : ℚ) : Pix4 :=
  ⟨tdx x, tdy y, if have_color then tdc c else 0, if have_size then tds s else 1⟩

/-- The primitives the backend receives.  A `fill_color` carries the colormap
coordinate handed to `m_colormap->to_color` (the colormap itself is an
external collaborator). -/
inductive DrawCmd where
  | stroke_width (w : ℚ)
  | fill_color (c : ℚ)
  | circle (x y r : ℚ)
  | add_animated_circle (x y r t : ℚ)
  | end_animated_circle
deriving DecidableEq

/-- Radius observable of a command. -/
def circleRadius : DrawCmd → Option ℚ
  | DrawCmd.circle _ _ r => some r
  | DrawCmd.add_animated_circle _ _ r _ => some r
  | _ => none

/-- Colormap-coordinate observable of a command. -/
def colorCoord : DrawCmd → Option ℚ
  | DrawCmd.fill_color c => some c
  | _ => none

/-- Whether a command is a (non-animated) circle primitive. -/
def isCircleCmd : DrawCmd → Bool
  | DrawCmd.circle _ _ _ => true
  | _ => false

/-- The body of the row loop in `Points::draw_plot` when `w2 == 0` (exactly
on a single frame): one `fill_color` at the transformed colormap coordinate
and one `circle` at the transformed position and radius. -/
def single_row_cmds (tdx tdy tdc tds : ℚ → ℚ) (hc hs : Bool) (df : Frame)
    (i : ℕ) : List DrawCmd :=
  let p := to_pixel tdx tdy tdc tds hc hs (column df.x i) (column df.y i)
      (column (if hc then df.color.getD [] else df.x) i)
      (column (if hs then df.size.getD [] else df.x) i)
  [DrawCmd.fill_color p.pc, DrawCmd.circle p.px p.py p.ps]

/-- The body of the row loop in `Points::draw_plot` when between two frames:
the pixel 4-vector is the weighted sum `w1 * to_pixel(frame f) +
w2 * to_pixel(frame f-1)` — the transform is applied per frame before
blending — and one `fill_color` plus one `circle` is emitted at the blended
result. -/
def blended_row_cmds (tdx tdy tdc tds : ℚ → ℚ) (hc hs : Bool) (df df0 : Frame)
    (w1 w2 : ℚ) (i : ℕ) : List DrawCmd :=
  let p := Pix4.blend w1
      (to_pixel tdx tdy tdc tds hc hs (column df.x i) (column df.y i)
        (column (if hc then df.color.getD [] else df.x) i)
        (column (if hs then df.size.getD [] else df.x) i))
      w2
      (to_pixel tdx tdy tdc tds hc hs (column df0.x i) (column df0.y i)
        (column (if hc then df0.color.getD [] else df0.x) i)
        (column (if hs then df0.size.getD [] else df0.x) i))
  [DrawCmd.fill_color p.pc, DrawCmd.circle p.px p.py p.ps]

/-- The body of the frame loop in `Points::draw_frames`: one `fill_color`
plus one keyframe `add_animated_circle` for frame `df` at timestamp `tf`
(an absent color or size channel passes the literal `0.f` that `to_pixel`
then replaces by the fixed default). -/
def animated_frame_cmds (tdx tdy tdc tds : ℚ → ℚ) (hc hs : Bool) (df : Frame)
    (tf : ℚ) (i : ℕ) : List DrawCmd :=
  let p := to_pixel tdx tdy tdc tds hc hs (column df.x i) (column df.y i)
      (if hc then column (df.color.getD []) i else 0)
      (if hs then column (df.size.getD []) i else 0)
  [DrawCmd.fill_color p.pc, DrawCmd.add_animated_circle p.px p.py p.ps tf]

/-- Option-valued traversal of a loop body that may perform an invalid
access; the loop stops at the first failure. -/
def mapOpt {α β : Type} (f : α → Option β) : List α → Option (List β)
  | [] => some []
  | a :: l => do
      let b ← f a
      let bs ← mapOpt f l
      pure (b :: bs)

/-- `Points::draw_frames` (`src/frontend/Points.tcc` lines 59–88): probe the
aesthetics on `m_data[0]`, then for every row of `m_data[0]` and every frame
emit one keyframe chain of animated circles. -/
def draw_frames (tdx tdy tdc tds : ℚ → ℚ) (s : PointsState) :
    Option (List DrawCmd) := do
  let d0 ← dataAt s 0
  let hc := check_aesthetic_color d0
  let hs := check_aesthetic_size d0
  let rows ← mapOpt (fun i => do
      let inner ← mapOpt (fun (f : ℕ) => do
          let df ← dataAt s (f : ℤ)
          pure (animated_frame_cmds tdx tdy tdc tds hc hs df (s.times.getD f 0) i))
        (List.range s.times.length)
      pure (inner.flatten ++ [DrawCmd.end_animated_circle]))
    (List.range d0.rows)
  pure (DrawCmd.stroke_width 0 :: rows.flatten)

/-- `Points::draw_plot` (`src/frontend/Points.tcc` lines 90–142): probe the
aesthetics on `m_data[f]`; if `w2 == 0` draw each row from frame `f` alone,
otherwise blend the per-frame transformed pixel vectors with `w1`/`w2`
(absent color/size channels use the x iterator as an unused dummy). -/
def draw_plot (tdx tdy tdc tds : ℚ → ℚ) (s : PointsState) (fi : FrameInfo) :
    Option (List DrawCmd) := do
  let df ← dataAt s fi.frame_above
  let hc := check_aesthetic_color df
  let hs := check_aesthetic_size df
  let d0 ← dataAt s 0
  if fi.w2 = 0 then
    pure (DrawCmd.stroke_width 0 ::
      ((List.range d0.rows).map
        (single_row_cmds tdx tdy tdc tds hc hs df)).flatten)
  else do
    let df0 ← dataAt s (fi.frame_above - 1)
    pure (DrawCmd.stroke_width 0 ::
      ((List.range d0.rows).map
        (blended_row_cmds tdx tdy tdc tds hc hs df df0 fi.w1 fi.w2)).flatten)

/-- Modelled from the spec: the index resolution inside
`Plot1D::update_frame_info`, which is not among the sources — `frameAbove` is
the index of the earliest registered frame with timestamp ≥ t, or the last
frame if t exceeds all timestamps. -/
def frame_above_idx (t : ℚ) : List ℚ → ℕ
  | [] => 0
  | [_] => 0
  | t0 :: t1 :: rest => if t ≤ t0 then 0 else frame_above_idx t (t1 :: rest) + 1

/-- Modelled from the spec: `Plot1D::update_frame_info` (not among the
sources) — resolve a query time to `(frameAbove, w1, w2)` with `w1 + w2 = 1`
the linear blend weights toward `frameAbove` and `frameAbove - 1`; a time on
a frame timestamp, before the first or after the last timestamp gives
`w2 = 0` (clamping, no extrapolation). -/
def update_frame_info (times : List ℚ) (t : ℚ) : FrameInfo :=
  let i := frame_above_idx t times
  let ti := times.getD i 0
  if i = 0 ∨ ti ≤ t then ⟨(i : ℤ), 1, 0⟩
  else
    let tim := times.getD (i - 1) 0
    let w1 := (t - tim) / (ti - tim)
    ⟨(i : ℤ), w1, 1 - w1⟩

/-- `Points::draw(AnimatedBackend&)`: delegates to `draw_frames`. -/
def draw_animated (tdx tdy tdc tds : ℚ → ℚ) (s : PointsState) :
    Option (List DrawCmd) :=
  draw_frames tdx tdy tdc tds s

/-- `Points::draw(Backend&, float)`: `update_frame_info(time)` then
`draw_plot`. -/
def draw_at_time (tdx tdy tdc tds : ℚ → ℚ) (s : PointsState) (t : ℚ) :
    Option (List DrawCmd) :=
  draw_plot tdx tdy tdc tds s (update_frame_info s.times t)

theorem countDigits_of_lt_one {q : ℚ} (h : q < 1) : countDigits q = 0 := by
  rw [countDigits]
  simp [not_le.mpr h]

theorem countDigits_of_one_le {q : ℚ} (h : 1 ≤ q) :
    countDigits q = countDigits (q / 10) + 1 := by
  rw [countDigits]
  simp [h]

/-- Every rational is strictly below `10 ^ countDigits`. -/
theorem lt_pow_countDigits (q : ℚ) : q < (10 : ℚ) ^ countDigits q := by
  by_cases h : 1 ≤ q
  · rw [countDigits_of_one_le h]
    have hlt : q / 10 < (10 : ℚ) ^ countDigits (q / 10) := lt_pow_countDigits (q / 10)
    have : q < (10 : ℚ) ^ countDigits (q / 10) * 10 := by
      have h10 : (0 : ℚ) < 10 := by norm_num
      calc q = q / 10 * 10 := by field_simp
        _ < (10 : ℚ) ^ countDigits (q / 10) * 10 := by
            exact mul_lt_mul_of_pos_right hlt h10
    simpa [pow_succ] using this
  · rw [countDigits_of_lt_one (not_le.mp h)]
    simpa using not_le.mp h
termination_by ⌊q⌋₊
decreasing_by
  have h1 : (1 : ℚ) ≤ q := by assumption
  have h10 : ⌊q / 10⌋₊ = ⌊q⌋₊ / 10 := by
    have := Nat.floor_div_nat q 10
    simpa using this
  have hq1 : 1 ≤ ⌊q⌋₊ := Nat.le_floor (by exact_mod_cast h1)
  calc ⌊q / 10⌋₊ = ⌊q⌋₊ / 10 := h10
    _ < ⌊q⌋₊ := Nat.div_lt_self (by omega) (by norm_num)

/-- For values ≥ 1 the digit count is positive and `10 ^ (countDigits - 1)`
is a lower bound. -/
theorem pow_countDigits_sub_one_le {q : ℚ} (h : 1 ≤ q) :
    (10 : ℚ) ^ (countDigits q - 1) ≤ q := by
  rw [countDigits_of_one_le h]
  by_cases h2 : 1 ≤ q / 10
  · have ih := pow_countDigits_sub_one_le h2
    have hcd : 1 ≤ countDigits (q / 10) := by
      rw [countDigits_of_one_le h2]
      omega
    have hstep : (10 : ℚ) ^ countDigits (q / 10) ≤ q := by
      have h10 : (0 : ℚ) < 10 := by norm_num
      have : (10 : ℚ) ^ (countDigits (q / 10) - 1) * 10 ≤ q / 10 * 10 :=
        mul_le_mul_of_nonneg_right ih (by norm_num)
      have hq : q / 10 * 10 = q := by field_simp
      rw [hq] at this
      calc (10 : ℚ) ^ countDigits (q / 10)
          = (10 : ℚ) ^ (countDigits (q / 10) - 1) * 10 := by
            rw [← pow_succ]
            congr 1
            omega
        _ ≤ q := this
    simpa using hstep
  · have h0 : countDigits (q / 10) = 0 := countDigits_of_lt_one (not_le.mp h2)
    rw [h0]
    simpa using h
termination_by ⌊q⌋₊
decreasing_by
  have h1q : (1 : ℚ) ≤ q := by assumption
  have h10 : ⌊q / 10⌋₊ = ⌊q⌋₊ / 10 := by
    have := Nat.floor_div_nat q 10
    simpa using this
  have hq1 : 1 ≤ ⌊q⌋₊ := Nat.le_floor (by exact_mod_cast h1q)
  calc ⌊q / 10⌋₊ = ⌊q⌋₊ / 10 := h10
    _ < ⌊q⌋₊ := Nat.div_lt_self (by omega) (by norm_num)

/-- A value between consecutive powers of 10 has a determined digit count. -/
theorem countDigits_eq_of_bounds :
    ∀ (i : ℕ) (q : ℚ), (10 : ℚ) ^ i ≤ q → q < (10 : ℚ) ^ (i + 1) →
    countDigits q = i + 1 := by
  intro i
  induction i with
  | zero =>
    intro q h1 h2
    rw [countDigits_of_one_le (by simpa using h1)]
    have : q / 10 < 1 := by
      rw [div_lt_one (by norm_num)]
      simpa [pow_succ] using h2
    rw [countDigits_of_lt_one this]
  | succ k ih =>
    intro q h1 h2
    have hq1 : (1 : ℚ) ≤ q := by
      calc (1 : ℚ) ≤ (10 : ℚ) ^ (k + 1) := one_le_pow₀ (by norm_num)
        _ ≤ q := h1
    rw [countDigits_of_one_le hq1]
    have hlow : (10 : ℚ) ^ k ≤ q / 10 := by
      rw [le_div_iff₀ (by norm_num : (0:ℚ) < 10)]
      calc (10 : ℚ) ^ k * 10 = (10 : ℚ) ^ (k + 1) := (pow_succ 10 k).symm
        _ ≤ q := h1
    have hhigh : q / 10 < (10 : ℚ) ^ (k + 1) := by
      rw [div_lt_iff₀ (by norm_num : (0:ℚ) < 10)]
      calc q < (10 : ℚ) ^ (k + 1 + 1) := h2
        _ = (10 : ℚ) ^ (k + 1) * 10 := pow_succ 10 (k + 1)
    rw [ih (q / 10) hlow hhigh]

theorem round_off_elem_def (v : ℚ) (n : ℤ) :
    round_off_elem v n =
      (⌊v * (10 : ℚ) ^ (n - (countDigits v : ℤ)) + 1/2⌋ : ℚ) /
        (10 : ℚ) ^ (n - (countDigits v : ℤ)) := rfl

/-- A nonnegative integer power of ten, seen as a rational `zpow`. -/
theorem ten_zpow_int (n : ℤ) (hn : 0 ≤ n) :
    (10 : ℚ) ^ n = ((10 ^ n.toNat : ℤ) : ℚ) := by
  push_cast
  rw [← zpow_natCast (10 : ℚ) n.toNat, Int.toNat_of_nonneg hn]

/-- If `r` times the rounding precision is already an integer, `round_off`
leaves `r` unchanged. -/
theorem round_off_elem_fixed (r : ℚ) (n : ℤ) (m : ℤ)
    (h : r * (10 : ℚ) ^ (n - (countDigits r : ℤ)) = (m : ℚ)) :
    round_off_elem r n = r := by
  rw [round_off_elem_def, h]
  have hfl : ⌊(m : ℚ) + 1/2⌋ = m := by
    rw [add_comm, Int.floor_add_int]
    norm_num
  rw [hfl]
  have hd0 : ((10 : ℚ) ^ (n - (countDigits r : ℤ))) ≠ 0 := by positivity
  rw [div_eq_iff hd0]
  exact h.symm

/-- Idempotence of a single `round_off` element for a positive digit count. -/
theorem round_off_elem_idem (v : ℚ) (n : ℤ) (hn : 1 ≤ n) :
    round_off_elem (round_off_elem v n) n = round_off_elem v n := by
  have h10 : (0 : ℚ) < 10 := by norm_num
  have hd0 : (0 : ℚ) < (10 : ℚ) ^ (n - (countDigits v : ℤ)) :=
    zpow_pos h10 _
  have hdne : ((10 : ℚ) ^ (n - (countDigits v : ℤ))) ≠ 0 := ne_of_gt hd0
  -- abbreviations matching the source: i, d, k, r
  have hr : round_off_elem v n =
      (⌊v * (10 : ℚ) ^ (n - (countDigits v : ℤ)) + 1/2⌋ : ℚ) /
        (10 : ℚ) ^ (n - (countDigits v : ℤ)) := round_off_elem_def v n
  -- upper bound on the rounded integer: k ≤ 10 ^ n
  have hvlt : v < (10 : ℚ) ^ (countDigits v : ℕ) := lt_pow_countDigits v
  have hvd : v * (10 : ℚ) ^ (n - (countDigits v : ℤ)) < (10 : ℚ) ^ n := by
    have : v * (10 : ℚ) ^ (n - (countDigits v : ℤ)) <
        (10 : ℚ) ^ (countDigits v : ℕ) * (10 : ℚ) ^ (n - (countDigits v : ℤ)) :=
      mul_lt_mul_of_pos_right hvlt hd0
    calc v * (10 : ℚ) ^ (n - (countDigits v : ℤ))
        < (10 : ℚ) ^ (countDigits v : ℕ) * (10 : ℚ) ^ (n - (countDigits v : ℤ)) := this
      _ = (10 : ℚ) ^ ((countDigits v : ℤ) + (n - (countDigits v : ℤ))) := by
          rw [zpow_add₀ (ne_of_gt h10), zpow_natCast]
      _ = (10 : ℚ) ^ n := by ring_nf
  have hk_le : ⌊v * (10 : ℚ) ^ (n - (countDigits v : ℤ)) + 1/2⌋ ≤ 10 ^ n.toNat := by
    by_contra hcon
    push_neg at hcon
    have h1 : (10 ^ n.toNat + 1 : ℤ) ≤
        ⌊v * (10 : ℚ) ^ (n - (countDigits v : ℤ)) + 1/2⌋ := hcon
    have h2 : ((10 ^ n.toNat + 1 : ℤ) : ℚ) ≤
        v * (10 : ℚ) ^ (n - (countDigits v : ℤ)) + 1/2 := by
      calc ((10 ^ n.toNat + 1 : ℤ) : ℚ)
          ≤ (⌊v * (10 : ℚ) ^ (n - (countDigits v : ℤ)) + 1/2⌋ : ℚ) := by exact_mod_cast h1
        _ ≤ v * (10 : ℚ) ^ (n - (countDigits v : ℤ)) + 1/2 := Int.floor_le _
    have h3 : (10 : ℚ) ^ n + 1 ≤ v * (10 : ℚ) ^ (n - (countDigits v : ℤ)) + 1/2 := by
      rw [ten_zpow_int n (by omega)]
      push_cast at h2 ⊢
      linarith
    linarith
  by_cases hktop : ⌊v * (10 : ℚ) ^ (n - (countDigits v : ℤ)) + 1/2⌋ = 10 ^ n.toNat
  · -- the rounding produced exactly 10 ^ countDigits v: one more digit appears,
    -- but the result is still a fixed point of the coarser rounding
    have hr2 : round_off_elem v n = (10 : ℚ) ^ (countDigits v : ℤ) := by
      rw [hr, hktop]
      rw [div_eq_iff hdne, ← zpow_add₀ (ne_of_gt h10)]
      rw [← ten_zpow_int n (by omega)]
      congr 1
      ring
    have hcd : countDigits ((10 : ℚ) ^ (countDigits v : ℤ)) = countDigits v + 1 := by
      have hb1 : (10 : ℚ) ^ (countDigits v : ℕ) ≤ (10 : ℚ) ^ (countDigits v : ℤ) := by
        rw [zpow_natCast]
      have hb2 : (10 : ℚ) ^ (countDigits v : ℤ) < (10 : ℚ) ^ (countDigits v + 1 : ℕ) := by
        rw [zpow_natCast]
        exact pow_lt_pow_right₀ (by norm_num) (by omega)
      exact countDigits_eq_of_bounds (countDigits v) _ hb1 hb2
    rw [hr2]
    refine round_off_elem_fixed _ n (10 ^ (n - 1).toNat) ?_
    rw [hcd, ← zpow_add₀ (ne_of_gt h10), ← ten_zpow_int (n - 1) (by omega)]
    congr 1
    push_cast
    ring
  · -- the rounded integer stays strictly below 10 ^ n: digit count is preserved
    have hklt : ⌊v * (10 : ℚ) ^ (n - (countDigits v : ℤ)) + 1/2⌋ < 10 ^ n.toNat :=
      lt_of_le_of_ne hk_le hktop
    have hrlt : round_off_elem v n < (10 : ℚ) ^ (countDigits v : ℤ) := by
      rw [hr]
      rw [div_lt_iff₀ hd0, ← zpow_add₀ (ne_of_gt h10)]
      have : ((⌊v * (10 : ℚ) ^ (n - (countDigits v : ℤ)) + 1/2⌋ : ℤ) : ℚ) <
          ((10 ^ n.toNat : ℤ) : ℚ) := by exact_mod_cast hklt
      rw [← ten_zpow_int n (by omega)] at this
      calc (⌊v * (10 : ℚ) ^ (n - (countDigits v : ℤ)) + 1/2⌋ : ℚ)
          < (10 : ℚ) ^ n := this
        _ = (10 : ℚ) ^ ((countDigits v : ℤ) + (n - (countDigits v : ℤ))) := by ring_nf
    have hcd : countDigits (round_off_elem v n) = countDigits v := by
      by_cases hi : countDigits v = 0
      · -- value below one stays below one
        have : round_off_elem v n < 1 := by
          have := hrlt
          rw [hi] at this
          simpa using this
        rw [countDigits_of_lt_one this, hi]
      · -- value with i ≥ 1 digits keeps its digit count
        have hi1 : 1 ≤ countDigits v := by omega
        have hv1 : 1 ≤ v := by
          by_contra hcon
          push_neg at hcon
          rw [countDigits_of_lt_one hcon] at hi1
          omega
        have hlow : (10 : ℚ) ^ (countDigits v - 1) ≤ v := pow_countDigits_sub_one_le hv1
        -- lower bound on the rounded integer
        have hklow : (10 ^ (n - 1).toNat : ℤ) ≤
            ⌊v * (10 : ℚ) ^ (n - (countDigits v : ℤ)) + 1/2⌋ := by
          apply Int.le_floor.mpr
          have hmul : (10 : ℚ) ^ (countDigits v - 1 : ℕ) *
              (10 : ℚ) ^ (n - (countDigits v : ℤ)) ≤
              v * (10 : ℚ) ^ (n - (countDigits v : ℤ)) :=
            mul_le_mul_of_nonneg_right hlow (le_of_lt hd0)
          have heq : (10 : ℚ) ^ (countDigits v - 1 : ℕ) *
              (10 : ℚ) ^ (n - (countDigits v : ℤ)) = (10 : ℚ) ^ (n - 1) := by
            rw [← zpow_natCast (10 : ℚ) (countDigits v - 1), ← zpow_add₀ (ne_of_gt h10)]
            congr 1
            have : ((countDigits v - 1 : ℕ) : ℤ) = (countDigits v : ℤ) - 1 := by omega
            rw [this]
            ring
          rw [ten_zpow_int (n - 1) (by omega)] at heq
          push_cast
          push_cast at heq
          linarith [heq ▸ hmul]
        have hrlow : (10 : ℚ) ^ ((countDigits v : ℤ) - 1) ≤ round_off_elem v n := by
          rw [hr, le_div_iff₀ hd0, ← zpow_add₀ (ne_of_gt h10)]
          have h1 : ((10 ^ (n - 1).toNat : ℤ) : ℚ) ≤
              (⌊v * (10 : ℚ) ^ (n - (countDigits v : ℤ)) + 1/2⌋ : ℚ) := by
            exact_mod_cast hklow
          rw [← ten_zpow_int (n - 1) (by omega)] at h1
          calc (10 : ℚ) ^ ((countDigits v : ℤ) - 1 + (n - (countDigits v : ℤ)))
              = (10 : ℚ) ^ (n - 1) := by ring_nf
            _ ≤ (⌊v * (10 : ℚ) ^ (n - (countDigits v : ℤ)) + 1/2⌋ : ℚ) := h1
        have hlow2 : (10 : ℚ) ^ (countDigits v - 1 : ℕ) ≤ round_off_elem v n := by
          have : ((countDigits v - 1 : ℕ) : ℤ) = (countDigits v : ℤ) - 1 := by omega
          rw [← zpow_natCast (10 : ℚ) (countDigits v - 1), this]
          exact hrlow
        have hhigh2 : round_off_elem v n < (10 : ℚ) ^ (countDigits v - 1 + 1 : ℕ) := by
          have : (countDigits v - 1 + 1 : ℕ) = countDigits v := by omega
          rw [this, ← zpow_natCast (10 : ℚ) (countDigits v)]
          exact hrlt
        have := countDigits_eq_of_bounds (countDigits v - 1) _ hlow2 hhigh2
        rw [this]
        omega
    refine round_off_elem_fixed _ n ⌊v * (10 : ℚ) ^ (n - (countDigits v : ℤ)) + 1/2⌋ ?_
    rw [hcd, hr]
    rw [div_mul_cancel₀]
    exact hdne

/-- C1 (counterexample): the claimed value `round_off(0.01234, 2) = 0.012` is
false on the code: the digit-count `i` stays `0` for values below one, so the
element is rounded at precision `10^2`, giving `0.01`. -/
theorem round_off_small_value_counterexample :
    round_off [(0.01234 : ℚ)] 2 ≠ [(0.012 : ℚ)] ∧
    round_off [(0.01234 : ℚ)] 2 = [(0.01 : ℚ)] := by
  have hcd : countDigits (0.01234 : ℚ) = 0 := countDigits_of_lt_one (by norm_num)
  have hv : round_off_elem (0.01234 : ℚ) 2 = 0.01 := by
    rw [round_off_elem, hcd]
    norm_num
  constructor
  · simp [round_off, hv]
    norm_num
  · simp [round_off, hv]

/-- C1 (amended): `round_off` rounds each element to `n` significant decimal
digits with the stated algorithm (digit count by repeated division by 10 while
the value is ≥ 1, then round half-up at precision `10^(n-i)`); in particular
`round_off(1234.5, 2) = 1200` and `round_off(0.01234, 2) = 0.01`. -/
theorem round_off_algorithm_and_examples :
    (∀ v : ℚ, countDigits v = if 1 ≤ v then countDigits (v / 10) + 1 else 0) ∧
    (∀ (v : ℚ) (n : ℤ), round_off_elem v n =
      (⌊v * (10 : ℚ) ^ (n - (countDigits v : ℤ)) + 1/2⌋ : ℚ) /
        (10 : ℚ) ^ (n - (countDigits v : ℤ))) ∧
    (∀ (x : List ℚ) (n : ℤ), round_off x n = x.map (fun v => round_off_elem v n)) ∧
    round_off [(1234.5 : ℚ)] 2 = [(1200 : ℚ)] ∧
    round_off [(0.01234 : ℚ)] 2 = [(0.01 : ℚ)] := by
  refine ⟨?_, fun v n => round_off_elem_def v n, fun x n => rfl, ?_, ?_⟩
  · intro v
    conv_lhs => rw [countDigits]
  · have hcd : countDigits (1234.5 : ℚ) = 4 :=
      countDigits_eq_of_bounds 3 _ (by norm_num) (by norm_num)
    have hv : round_off_elem (1234.5 : ℚ) 2 = 1200 := by
      rw [round_off_elem, hcd]
      norm_num
    simp [round_off, hv]
  · have hcd : countDigits (0.01234 : ℚ) = 0 := countDigits_of_lt_one (by norm_num)
    have hv : round_off_elem (0.01234 : ℚ) 2 = 0.01 := by
      rw [round_off_elem, hcd]
      norm_num
    simp [round_off, hv]

/-- C9 (counterexample): `round_off` is not idempotent for every digit count:
at `n = 0`, `round_off([9.6], 0) = [10]` but applying it again yields `[0]`
(the digit count of `10` is 2, so the second pass rounds at precision
`10^(-2)` and floors `0.6` to `0`). -/
theorem round_off_not_idempotent_at_zero_digits :
    round_off (round_off [(9.6 : ℚ)] 0) 0 ≠ round_off [(9.6 : ℚ)] 0 := by
  have hcd1 : countDigits (9.6 : ℚ) = 1 :=
    countDigits_eq_of_bounds 0 _ (by norm_num) (by norm_num)
  have h1 : round_off_elem (9.6 : ℚ) 0 = 10 := by
    rw [round_off_elem, hcd1]
    norm_num
  have hcd2 : countDigits (10 : ℚ) = 2 :=
    countDigits_eq_of_bounds 1 _ (by norm_num) (by norm_num)
  have h2 : round_off_elem (10 : ℚ) 0 = 0 := by
    rw [round_off_elem, hcd2]
    norm_num
  simp only [round_off, List.map, h1, h2]
  intro hcon
  have h01 : (0 : ℚ) = 10 := (List.cons_eq_cons.mp hcon).1
  norm_num at h01

/-- C9 (amended): for every vector `x` and every digit count `n ≥ 1`,
`round_off(round_off(x, n), n) = round_off(x, n)`. -/
theorem round_off_idempotent_pos_digits (x : List ℚ) (n : ℤ) (hn : 1 ≤ n) :
    round_off (round_off x n) n = round_off x n := by
  simp only [round_off, List.map_map, Function.comp]
  exact List.map_congr_left fun v _ => round_off_elem_idem v n hn

/-- Witness for C9's amended theorem at `x = [1234.5]`, `n = 2`. -/
theorem round_off_idempotent_pos_digits_witness :
    (1 : ℤ) ≤ 2 ∧
    round_off (round_off [(1234.5 : ℚ)] 2) 2 = round_off [(1234.5 : ℚ)] 2 :=
  ⟨by norm_num, round_off_idempotent_pos_digits [(1234.5 : ℚ)] 2 (by norm_num)⟩

/-- C10: for negative inputs the digit-counting loop never runs (`i = 0`), so
the element is rounded at precision `10^n` — exactly `n` digits after the
decimal point, half-up toward positive infinity (`-0.05` rounds to `0`, not
`-0.1`) — never to `n` significant digits. -/
theorem round_off_negative_values (v : ℚ) (n : ℤ) (h : v < 0) :
    countDigits v = 0 ∧
    round_off_elem v n = (⌊v * (10 : ℚ) ^ n + 1/2⌋ : ℚ) / (10 : ℚ) ^ n ∧
    round_off [(-0.05 : ℚ)] 1 = [(0 : ℚ)] := by
  have hcd : countDigits v = 0 := countDigits_of_lt_one (h.trans (by norm_num))
  refine ⟨hcd, ?_, ?_⟩
  · rw [round_off_elem, hcd]
    norm_num
  · have hcd2 : countDigits (-0.05 : ℚ) = 0 := countDigits_of_lt_one (by norm_num)
    have hv : round_off_elem (-0.05 : ℚ) 1 = 0 := by
      rw [round_off_elem, hcd2]
      norm_num
    simp [round_off, hv]

/-- Witness for C10 at `v = -5`, `n = 2`. -/
theorem round_off_negative_values_witness :
    (-5 : ℚ) < 0 ∧
    (countDigits (-5 : ℚ) = 0 ∧
     round_off_elem (-5 : ℚ) 2 = (⌊(-5 : ℚ) * (10 : ℚ) ^ (2 : ℤ) + 1/2⌋ : ℚ) /
       (10 : ℚ) ^ (2 : ℤ) ∧
     round_off [(-0.05 : ℚ)] 1 = [(0 : ℚ)]) :=
  ⟨by norm_num, round_off_negative_values (-5) 2 (by norm_num)⟩

/-- C7: `calculate_num_ticks` returns the requested pair verbatim when both
counts are requested, `(x, ⌊x/r⌋)` when only x is, `(⌊y·r⌋, y)` when only y
is, and `(⌊5r⌋, 5)` when neither, with `r` the viewport width/height ratio;
with no explicit counts it returns `(5,5)` for a square viewport and `(10,5)`
when the width is twice the height. -/
theorem calculate_num_ticks_matches_spec :
    (∀ a : AxisState, calculate_num_ticks a = calculate_num_ticks_from_spec a) ∧
    calculate_num_ticks ⟨⟨(0, 0), (10, 10)⟩, ⟨(0, 0), (100, 100)⟩, 2, 0, 0⟩ = (5, 5) ∧
    calculate_num_ticks ⟨⟨(0, 0), (10, 10)⟩, ⟨(0, 0), (200, 100)⟩, 2, 0, 0⟩ = (10, 5) := by
  refine ⟨fun a => rfl, ?_, ?_⟩
  · norm_num [calculate_num_ticks, Box2.deltax, Box2.deltay]
  · norm_num [calculate_num_ticks, Box2.deltax, Box2.deltay]

/-- C3: on limits `(0,0)–(10,10)`, a 100×100 viewport, 2 significant digits
and no requested tick counts, `update_tick_information` emits exactly 5 x and
5 y (value, position) pairs; the values are `[0, 2, 4, 6, 8]` — non-decreasing,
spaced by `round_off(10/5, 2) = 2`, starting at the spacing-aligned
`⌈min/spacing⌉·spacing = 0`. -/
theorem update_tick_information_default_square :
    (update_tick_information ⟨⟨(0, 0), (10, 10)⟩, ⟨(0, 0), (100, 100)⟩, 2, 0, 0⟩).x_val
      = [0, 2, 4, 6, 8] ∧
    (update_tick_information ⟨⟨(0, 0), (10, 10)⟩, ⟨(0, 0), (100, 100)⟩, 2, 0, 0⟩).y_val
      = [0, 2, 4, 6, 8] ∧
    (update_tick_information ⟨⟨(0, 0), (10, 10)⟩, ⟨(0, 0), (100, 100)⟩, 2, 0, 0⟩).x_pos.length
      = 5 ∧
    (update_tick_information ⟨⟨(0, 0), (10, 10)⟩, ⟨(0, 0), (100, 100)⟩, 2, 0, 0⟩).y_pos.length
      = 5 ∧
    round_off_elem ((10 : ℚ) / 5) 2 = 2 ∧
    (⌈(0 : ℚ) / 2⌉ : ℚ) * 2 = 0 ∧
    List.Chain' (· ≤ ·) [(0 : ℚ), 2, 4, 6, 8] := by
  have hcd : countDigits (2 : ℚ) = 1 :=
    countDigits_eq_of_bounds 0 _ (by norm_num) (by norm_num)
  have hro : round_off_elem (2 : ℚ) 2 = 2 := by
    rw [round_off_elem, hcd]
    norm_num
  have h5 : List.range (Int.toNat 5) = [0, 1, 2, 3, 4] := by decide
  refine ⟨?_, ?_, ?_, ?_, ?_, by norm_num,
    by norm_num [List.chain'_cons, List.chain'_singleton]⟩
  · simp only [update_tick_information, calculate_num_ticks, Box2.deltax, Box2.deltay]
    norm_num [truncInt]
    rw [hro, h5]
    norm_num
  · simp only [update_tick_information, calculate_num_ticks, Box2.deltax, Box2.deltay]
    norm_num [truncInt]
    rw [hro, h5]
    norm_num
  · simp only [update_tick_information, calculate_num_ticks, Box2.deltax, Box2.deltay]
    norm_num [truncInt]
    rw [h5]
    simp
  · simp only [update_tick_information, calculate_num_ticks, Box2.deltax, Box2.deltay]
    norm_num [truncInt]
    rw [h5]
    simp
  · rw [show ((10 : ℚ) / 5) = 2 from by norm_num]
    exact hro

/-- C6: an inverted axis (`bmax < bmin` on that axis) is replaced by the
default `[0,1]` range before spacing and tick positions are computed: the
tick values on that axis equal those of the same state with `[0,1]` limits;
on a state with both axes inverted, no requested tick counts and a 100×100
viewport, the tick values are `[0, 1/5, 2/5, 3/5, 4/5]` — exact rationals
derived from `[0,1]`, and the computation is total. -/
theorem update_tick_information_degenerate_limits (a : AxisState) :
    (a.limits.bmax.1 < a.limits.bmin.1 →
      (update_tick_information a).x_val =
        (update_tick_information { a with limits :=
          ⟨(0, a.limits.bmin.2), (1, a.limits.bmax.2)⟩ }).x_val) ∧
    (a.limits.bmax.2 < a.limits.bmin.2 →
      (update_tick_information a).y_val =
        (update_tick_information { a with limits :=
          ⟨(a.limits.bmin.1, 0), (a.limits.bmax.1, 1)⟩ }).y_val) ∧
    (update_tick_information ⟨⟨(5, 5), (1, 1)⟩, ⟨(0, 0), (100, 100)⟩, 2, 0, 0⟩).x_val
      = [0, 1/5, 2/5, 3/5, 4/5] ∧
    (update_tick_information ⟨⟨(5, 5), (1, 1)⟩, ⟨(0, 0), (100, 100)⟩, 2, 0, 0⟩).y_val
      = [0, 1/5, 2/5, 3/5, 4/5] := by
  have hcd : countDigits (1/5 : ℚ) = 0 := countDigits_of_lt_one (by norm_num)
  have hro : round_off_elem (1/5 : ℚ) 2 = 1/5 := by
    rw [round_off_elem, hcd]
    norm_num
  have h5 : List.range (Int.toNat 5) = [0, 1, 2, 3, 4] := by decide
  refine ⟨?_, ?_, ?_, ?_⟩
  · intro h
    simp only [update_tick_information, calculate_num_ticks, Box2.deltax, Box2.deltay]
    norm_num [h]
  · intro h
    simp only [update_tick_information, calculate_num_ticks, Box2.deltax, Box2.deltay]
    norm_num [h]
  · simp only [update_tick_information, calculate_num_ticks, Box2.deltax, Box2.deltay]
    norm_num [truncInt]
    rw [hro, h5]
    norm_num
  · simp only [update_tick_information, calculate_num_ticks, Box2.deltax, Box2.deltay]
    norm_num [truncInt]
    rw [hro, h5]
    norm_num

/-- Witness for C6 at a state with both axes inverted. -/
theorem update_tick_information_degenerate_limits_witness :
    (update_tick_information ⟨⟨(5, 5), (1, 1)⟩, ⟨(0, 0), (100, 100)⟩, 2, 0, 0⟩).x_val =
      (update_tick_information ⟨⟨(0, 5), (1, 1)⟩, ⟨(0, 0), (100, 100)⟩, 2, 0, 0⟩).x_val ∧
    (update_tick_information ⟨⟨(5, 5), (1, 1)⟩, ⟨(0, 0), (100, 100)⟩, 2, 0, 0⟩).y_val =
      (update_tick_information ⟨⟨(5, 0), (1, 1)⟩, ⟨(0, 0), (100, 100)⟩, 2, 0, 0⟩).y_val :=
  ⟨(update_tick_information_degenerate_limits
      ⟨⟨(5, 5), (1, 1)⟩, ⟨(0, 0), (100, 100)⟩, 2, 0, 0⟩).1 (by norm_num),
   (update_tick_information_degenerate_limits
      ⟨⟨(5, 5), (1, 1)⟩, ⟨(0, 0), (100, 100)⟩, 2, 0, 0⟩).2.1 (by norm_num)⟩

/-! ## Points helper lemmas -/

theorem dataAt_mem {s : PointsState} {k : ℤ} {fr : Frame}
    (h : dataAt s k = some fr) : fr ∈ s.data := by
  unfold dataAt at h
  split at h
  · exact absurd h (by simp)
  · obtain ⟨hlt, rfl⟩ := List.getElem?_eq_some_iff.mp h
    exact List.getElem_mem hlt

theorem mapOpt_mem {α β : Type} (f : α → Option β) :
    ∀ (l : List α) (bs : List β), mapOpt f l = some bs →
      ∀ b ∈ bs, ∃ a ∈ l, f a = some b
  | [], bs, h => by
    simp only [mapOpt, Option.some.injEq] at h
    subst h
    intro b hb
    simp at hb
  | a :: l, bs, h => by
    cases hfa : f a with
    | none =>
      simp [mapOpt, hfa] at h
    | some b0 =>
      cases hml : mapOpt f l with
      | none =>
        simp [mapOpt, hfa, hml] at h
      | some bs0 =>
        simp only [mapOpt, hfa, hml] at h
        simp only [Option.bind_eq_bind, Option.some_bind, Option.pure_def,
          Option.some.injEq] at h
        subst h
        intro b hb
        rcases List.mem_cons.mp hb with rfl | hb0
        · exact ⟨a, List.mem_cons_self a l, hfa⟩
        · obtain ⟨a0, ha0, hfa0⟩ := mapOpt_mem f l bs0 hml b hb0
          exact ⟨a0, List.mem_cons_of_mem a ha0, hfa0⟩

theorem frame_above_idx_lt (t : ℚ) :
    ∀ (times : List ℚ), times ≠ [] → frame_above_idx t times < times.length
  | [], h => absurd rfl h
  | [t0], _ => by simp [frame_above_idx]
  | t0 :: t1 :: rest, _ => by
    by_cases h : t ≤ t0
    · simp [frame_above_idx, h]
    · have ih := frame_above_idx_lt t (t1 :: rest) (by simp)
      simp only [List.length_cons] at ih
      simp only [frame_above_idx, if_neg h, List.length_cons]
      omega

theorem frame_above_idx_earlier (t : ℚ) :
    ∀ (times : List ℚ) (j : ℕ), j < frame_above_idx t times →
      times.getD j 0 < t
  | [], j, h => by simp [frame_above_idx] at h
  | [t0], j, h => by simp [frame_above_idx] at h
  | t0 :: t1 :: rest, j, h => by
    by_cases ht : t ≤ t0
    · rw [frame_above_idx, if_pos ht] at h
      omega
    · rw [frame_above_idx, if_neg ht] at h
      cases j with
      | zero => simpa using not_le.mp ht
      | succ j0 =>
        have := frame_above_idx_earlier t (t1 :: rest) j0 (by omega)
        simpa using this

theorem frame_above_idx_spec (t : ℚ) :
    ∀ (times : List ℚ), times ≠ [] →
      t ≤ times.getD (frame_above_idx t times) 0 ∨
        frame_above_idx t times = times.length - 1
  | [], h => absurd rfl h
  | [t0], _ => by
    by_cases ht : t ≤ t0
    · left
      simpa [frame_above_idx] using ht
    · right
      simp [frame_above_idx]
  | t0 :: t1 :: rest, _ => by
    by_cases ht : t ≤ t0
    · left
      simpa [frame_above_idx, if_pos ht] using ht
    · have ih := frame_above_idx_spec t (t1 :: rest) (by simp)
      rw [frame_above_idx, if_neg ht]
      rcases ih with h | h
      · left
        simpa using h
      · right
        simp only [List.length_cons] at h ⊢
        omega

theorem update_frame_info_frame_above (times : List ℚ) (t : ℚ) :
    (update_frame_info times t).frame_above = (frame_above_idx t times : ℤ) := by
  simp only [update_frame_info]
  split <;> rfl

theorem update_frame_info_weights (times : List ℚ) (t : ℚ) :
    (update_frame_info times t).w1 + (update_frame_info times t).w2 = 1 := by
  simp only [update_frame_info]
  split
  · simp
  · simp only
    ring

theorem update_frame_info_w2_zero {times : List ℚ} {t : ℚ}
    (h : frame_above_idx t times = 0 ∨
      times.getD (frame_above_idx t times) 0 ≤ t) :
    (update_frame_info times t).w2 = 0 := by
  simp only [update_frame_info]
  rw [if_pos h]

/-- C2 (code evaluated at the failing input): with zero registered frames,
both draw paths attempt to read a frame that does not exist — `draw_frames`
probes `m_data[0]` and `draw_plot` probes `m_data[frame_above]` before any
row loop — so the embedded draws return `none` (failed access) instead of
drawing nothing. -/
theorem points_draw_zero_frames_reads_missing_frame :
    (∀ tdx tdy tdc tds : ℚ → ℚ, draw_frames tdx tdy tdc tds ⟨[], []⟩ = none) ∧
    (∀ (tdx tdy tdc tds : ℚ → ℚ) (t : ℚ),
      draw_at_time tdx tdy tdc tds ⟨[], []⟩ t = none) := by
  constructor
  · intro tdx tdy tdc tds
    simp [draw_frames, dataAt]
  · intro tdx tdy tdc tds t
    simp [draw_at_time, draw_plot, dataAt, update_frame_info, frame_above_idx]

/-- C4: for a non-empty series with strictly increasing timestamps,
`update_frame_info` resolves a query time to the earliest frame with
timestamp ≥ t (or the last frame when t exceeds every timestamp); the blend
weights sum to 1; a time on a timestamp, before the first or after the last
timestamp gives `w2 = 0`, and then `draw_plot` succeeds reading only frame
`frameAbove` (frame `frameAbove - 1` is never accessed); for frames at times
`{0, 1}`, querying `t = 0.25` yields `frameAbove = 1`, `w1 = 1/4`,
`w2 = 3/4`. -/
theorem update_frame_info_resolution (times : List ℚ) (t : ℚ)
    (hne : times ≠ []) (hsorted : List.Chain' (· < ·) times) :
    (update_frame_info times t).frame_above = (frame_above_idx t times : ℤ) ∧
    frame_above_idx t times < times.length ∧
    (∀ j, j < frame_above_idx t times → times.getD j 0 < t) ∧
    (t ≤ times.getD (frame_above_idx t times) 0 ∨
      frame_above_idx t times = times.length - 1) ∧
    (update_frame_info times t).w1 + (update_frame_info times t).w2 = 1 ∧
    (t ∈ times → (update_frame_info times t).w2 = 0) ∧
    (t ≤ times.getD 0 0 → (update_frame_info times t).w2 = 0) ∧
    ((∀ x ∈ times, x < t) → (update_frame_info times t).w2 = 0) ∧
    ((update_frame_info times t).w2 = 0 →
      ∀ (tdx tdy tdc tds : ℚ → ℚ) (s : PointsState) (df d0 : Frame),
        dataAt s (update_frame_info times t).frame_above = some df →
        dataAt s 0 = some d0 →
        ∃ cmds, draw_plot tdx tdy tdc tds s (update_frame_info times t) = some cmds) ∧
    update_frame_info [0, 1] (1/4) = ⟨1, 1/4, 3/4⟩ := by
  have hilt : frame_above_idx t times < times.length := frame_above_idx_lt t times hne
  refine ⟨update_frame_info_frame_above times t, hilt,
    fun j hj => frame_above_idx_earlier t times j hj,
    frame_above_idx_spec t times hne,
    update_frame_info_weights times t, ?_, ?_, ?_, ?_, ?_⟩
  · intro hmem
    apply update_frame_info_w2_zero
    right
    obtain ⟨j, hj, hjt⟩ := List.getElem_of_mem hmem
    by_cases hij : j < frame_above_idx t times
    · have hlt := frame_above_idx_earlier t times j hij
      rw [List.getD_eq_getElem _ _ hj, hjt] at hlt
      exact absurd hlt (lt_irrefl t)
    · push_neg at hij
      have hpair := List.chain'_iff_pairwise.mp hsorted
      rw [List.getD_eq_getElem _ _ hilt]
      rcases eq_or_lt_of_le hij with heq | hlt
      · subst heq
        exact le_of_eq hjt
      · have := List.pairwise_iff_getElem.mp hpair _ _ hilt hj hlt
        rw [hjt] at this
        exact le_of_lt this
  · intro h0
    apply update_frame_info_w2_zero
    by_cases hi : frame_above_idx t times = 0
    · exact Or.inl hi
    · have := frame_above_idx_earlier t times 0 (by omega)
      linarith
  · intro hall
    apply update_frame_info_w2_zero
    right
    rw [List.getD_eq_getElem _ _ hilt]
    exact le_of_lt (hall _ (List.getElem_mem hilt))
  · intro hw2 tdx tdy tdc tds s df d0 hdf hd0
    refine Option.isSome_iff_exists.mp ?_
    simp [draw_plot, hdf, hd0, hw2]
  · have hfai : frame_above_idx (1/4 : ℚ) ([0, 1] : List ℚ) = 1 := by
      norm_num [frame_above_idx]
    simp only [update_frame_info, hfai]
    norm_num [FrameInfo.mk.injEq]

/-- Witness for C4 at `times = [0, 1]`, `t = 1/4`. -/
theorem update_frame_info_resolution_witness :
    ([0, 1] : List ℚ) ≠ [] ∧ List.Chain' (· < ·) ([0, 1] : List ℚ) ∧
    update_frame_info [0, 1] (1/4) = ⟨1, 1/4, 3/4⟩ :=
  ⟨by simp, by norm_num [List.chain'_cons, List.chain'_singleton],
   (update_frame_info_resolution [0, 1] (1/4) (by simp)
     (by norm_num [List.chain'_cons, List.chain'_singleton])).2.2.2.2.2.2.2.2.2⟩

theorem countP_one_flatten (n : ℕ) (g : ℕ → List DrawCmd) (p : DrawCmd → Bool)
    (h : ∀ i, (g i).countP p = 1) :
    (((List.range n).map g).flatten.countP p) = n := by
  induction n with
  | zero => simp
  | succ k ih =>
    rw [List.range_succ, List.map_append, List.flatten_append, List.countP_append]
    simp [ih, h]

theorem draw_frames_mem_cases (tdx tdy tdc tds : ℚ → ℚ) (s : PointsState)
    (cmds : List DrawCmd) (h : draw_frames tdx tdy tdc tds s = some cmds)
    (c : DrawCmd) (hcm : c ∈ cmds) :
    ∃ d0, dataAt s 0 = some d0 ∧
      (c = DrawCmd.stroke_width 0 ∨ c = DrawCmd.end_animated_circle ∨
        ∃ (df : Frame) (i f : ℕ), dataAt s (f : ℤ) = some df ∧
          c ∈ animated_frame_cmds tdx tdy tdc tds (check_aesthetic_color d0)
            (check_aesthetic_size d0) df (s.times.getD f 0) i) := by
  cases hd0 : dataAt s 0 with
  | none => simp [draw_frames, hd0] at h
  | some d0 =>
    refine ⟨d0, rfl, ?_⟩
    simp only [draw_frames, hd0, Option.bind_eq_bind, Option.some_bind] at h
    simp only [Option.bind_eq_some] at h
    obtain ⟨rows, hrows, hcmds⟩ := h
    simp only [Option.pure_def, Option.some.injEq] at hcmds
    subst hcmds
    rcases List.mem_cons.mp hcm with rfl | hflat
    · exact Or.inl rfl
    · obtain ⟨row, hrow_mem, hc_row⟩ := List.mem_flatten.mp hflat
      obtain ⟨i, _, hFi⟩ := mapOpt_mem _ _ _ hrows row hrow_mem
      simp only [Option.bind_eq_some] at hFi
      obtain ⟨inner, hinner, hrow⟩ := hFi
      simp only [Option.pure_def, Option.some.injEq] at hrow
      subst hrow
      rcases List.mem_append.mp hc_row with hc_in | hc_end
      · obtain ⟨chunk, hchunk_mem, hc_chunk⟩ := List.mem_flatten.mp hc_in
        obtain ⟨f, _, hGf⟩ := mapOpt_mem _ _ _ hinner chunk hchunk_mem
        simp only [Option.bind_eq_some] at hGf
        obtain ⟨dff, hdff, hchunk⟩ := hGf
        simp only [Option.pure_def, Option.some.injEq] at hchunk
        subst hchunk
        exact Or.inr (Or.inr ⟨dff, i, f, hdff, hc_chunk⟩)
      · right
        left
        simpa using hc_end

theorem draw_plot_mem_cases (tdx tdy tdc tds : ℚ → ℚ) (s : PointsState)
    (fi : FrameInfo) (cmds : List DrawCmd)
    (h : draw_plot tdx tdy tdc tds s fi = some cmds)
    (c : DrawCmd) (hcm : c ∈ cmds) :
    ∃ df, dataAt s fi.frame_above = some df ∧
      (c = DrawCmd.stroke_width 0 ∨
        (fi.w2 = 0 ∧ ∃ i : ℕ,
          c ∈ single_row_cmds tdx tdy tdc tds (check_aesthetic_color df)
            (check_aesthetic_size df) df i) ∨
        (∃ df0, dataAt s (fi.frame_above - 1) = some df0 ∧ ∃ i : ℕ,
          c ∈ blended_row_cmds tdx tdy tdc tds (check_aesthetic_color df)
            (check_aesthetic_size df) df df0 fi.w1 fi.w2 i)) := by
  cases hdf : dataAt s fi.frame_above with
  | none => simp [draw_plot, hdf] at h
  | some df =>
    refine ⟨df, rfl, ?_⟩
    cases hd0 : dataAt s 0 with
    | none => simp [draw_plot, hdf, hd0] at h
    | some d0 =>
      simp only [draw_plot, hdf, hd0, Option.bind_eq_bind, Option.some_bind] at h
      by_cases hw : fi.w2 = 0
      · rw [if_pos hw] at h
        simp only [Option.pure_def, Option.some.injEq] at h
        subst h
        rcases List.mem_cons.mp hcm with rfl | hflat
        · exact Or.inl rfl
        · obtain ⟨row, hrow, hcr⟩ := List.mem_flatten.mp hflat
          obtain ⟨i, _, rfl⟩ := List.mem_map.mp hrow
          exact Or.inr (Or.inl ⟨hw, i, hcr⟩)
      · rw [if_neg hw] at h
        simp only [Option.bind_eq_some] at h
        obtain ⟨df0, hdf0, hsome⟩ := h
        simp only [Option.pure_def, Option.some.injEq] at hsome
        subst hsome
        rcases List.mem_cons.mp hcm with rfl | hflat
        · exact Or.inl rfl
        · obtain ⟨row, hrow, hcr⟩ := List.mem_flatten.mp hflat
          obtain ⟨i, _, rfl⟩ := List.mem_map.mp hrow
          exact Or.inr (Or.inr ⟨df0, hdf0, i, hcr⟩)

/-- C5: whenever the resolved `FrameInfo` has `w2 ≠ 0`, `draw_plot` draws
every row at the blended pixel 4-vector `w1 * to_pixel(frame f) + w2 *
to_pixel(frame f-1)` — the axis transform is applied to each frame's raw
values before blending — and emits exactly one circle primitive per row at
the blended position, radius, and colormap coordinate. -/
theorem draw_plot_blended_transform_before_blend
    (tdx tdy tdc tds : ℚ → ℚ) (s : PointsState) (fi : FrameInfo)
    (df df0 d0 : Frame)
    (hdf : dataAt s fi.frame_above = some df)
    (hdf0 : dataAt s (fi.frame_above - 1) = some df0)
    (hd0 : dataAt s 0 = some d0)
    (hw2 : fi.w2 ≠ 0) :
    draw_plot tdx tdy tdc tds s fi = some (DrawCmd.stroke_width 0 ::
      ((List.range d0.rows).map
        (blended_row_cmds tdx tdy tdc tds (check_aesthetic_color df)
          (check_aesthetic_size df) df df0 fi.w1 fi.w2)).flatten) ∧
    (∀ cmds, draw_plot tdx tdy tdc tds s fi = some cmds →
      cmds.countP isCircleCmd = d0.rows) := by
  have h1 : draw_plot tdx tdy tdc tds s fi = some (DrawCmd.stroke_width 0 ::
      ((List.range d0.rows).map
        (blended_row_cmds tdx tdy tdc tds (check_aesthetic_color df)
          (check_aesthetic_size df) df df0 fi.w1 fi.w2)).flatten) := by
    simp only [draw_plot, hdf, hd0, hdf0, Option.bind_eq_bind, Option.some_bind]
    rw [if_neg hw2]
    simp
  refine ⟨h1, ?_⟩
  intro cmds hcmds
  rw [h1, Option.some.injEq] at hcmds
  subst hcmds
  have hfl := countP_one_flatten d0.rows
    (blended_row_cmds tdx tdy tdc tds (check_aesthetic_color df)
      (check_aesthetic_size df) df df0 fi.w1 fi.w2)
    isCircleCmd (fun i => by simp [blended_row_cmds, List.countP_cons, isCircleCmd])
  simp [List.countP_cons, isCircleCmd, hfl]

/-- Witness for C5 on a two-frame series queried strictly between the
frames. -/
theorem draw_plot_blended_transform_before_blend_witness :
    ((⟨1, 1/4, 3/4⟩ : FrameInfo).w2 ≠ 0) ∧
    (∀ cmds, draw_plot id id id id
        ⟨[⟨[0], [0], none, none⟩, ⟨[1], [1], none, none⟩], [0, 1]⟩
        ⟨1, 1/4, 3/4⟩ = some cmds →
      cmds.countP isCircleCmd = Frame.rows ⟨[0], [0], none, none⟩) :=
  ⟨by norm_num,
   (draw_plot_blended_transform_before_blend id id id id
      ⟨[⟨[0], [0], none, none⟩, ⟨[1], [1], none, none⟩], [0, 1]⟩
      ⟨1, 1/4, 3/4⟩ ⟨[1], [1], none, none⟩ ⟨[0], [0], none, none⟩
      ⟨[0], [0], none, none⟩ rfl rfl rfl (by norm_num)).2⟩

/-- C8: a series whose frames lack the color aesthetic draws every row at
colormap scale position 0, and one whose frames lack the size aesthetic
draws every row at the default radius 1, in both the animated-backend and
the query-time draw paths. -/
theorem points_missing_aesthetic_defaults (tdx tdy tdc tds : ℚ → ℚ)
    (s : PointsState) :
    ((∀ fr ∈ s.data, fr.color = none) →
      ∀ cmds c, (draw_animated tdx tdy tdc tds s = some cmds ∨
          ∃ t, draw_at_time tdx tdy tdc tds s t = some cmds) → c ∈ cmds →
        colorCoord c = none ∨ colorCoord c = some 0) ∧
    ((∀ fr ∈ s.data, fr.size = none) →
      ∀ cmds c, (draw_animated tdx tdy tdc tds s = some cmds ∨
          ∃ t, draw_at_time tdx tdy tdc tds s t = some cmds) → c ∈ cmds →
        circleRadius c = none ∨ circleRadius c = some 1) := by
  constructor
  · intro hnone cmds c hdraw hcm
    rcases hdraw with hanim | ⟨t, htime⟩
    · obtain ⟨d0, hd0, hcase⟩ :=
        draw_frames_mem_cases tdx tdy tdc tds s cmds hanim c hcm
      have hflag : check_aesthetic_color d0 = false := by
        simp [check_aesthetic_color, hnone d0 (dataAt_mem hd0)]
      rcases hcase with rfl | rfl | ⟨dff, i, f, hdff, hc_chunk⟩
      · simp [colorCoord]
      · simp [colorCoord]
      · simp only [animated_frame_cmds, to_pixel, hflag, Bool.false_eq_true,
          if_false] at hc_chunk
        rcases List.mem_cons.mp hc_chunk with rfl | hc2
        · simp [colorCoord]
        · rcases List.mem_cons.mp hc2 with rfl | hc3
          · simp [colorCoord]
          · simp at hc3
    · obtain ⟨df, hdf, hcase⟩ :=
        draw_plot_mem_cases tdx tdy tdc tds s _ cmds htime c hcm
      have hflag : check_aesthetic_color df = false := by
        simp [check_aesthetic_color, hnone df (dataAt_mem hdf)]
      rcases hcase with rfl | ⟨_, i, hc_chunk⟩ | ⟨df0, hdf0, i, hc_chunk⟩
      · simp [colorCoord]
      · simp only [single_row_cmds, to_pixel, hflag, Bool.false_eq_true,
          if_false] at hc_chunk
        rcases List.mem_cons.mp hc_chunk with rfl | hc2
        · simp [colorCoord]
        · rcases List.mem_cons.mp hc2 with rfl | hc3
          · simp [colorCoord]
          · simp at hc3
      · simp only [blended_row_cmds, to_pixel, Pix4.blend, hflag,
          Bool.false_eq_true, if_false] at hc_chunk
        rcases List.mem_cons.mp hc_chunk with rfl | hc2
        · simp [colorCoord]
        · rcases List.mem_cons.mp hc2 with rfl | hc3
          · simp [colorCoord]
          · simp at hc3
  · intro hnone cmds c hdraw hcm
    rcases hdraw with hanim | ⟨t, htime⟩
    · obtain ⟨d0, hd0, hcase⟩ :=
        draw_frames_mem_cases tdx tdy tdc tds s cmds hanim c hcm
      have hflag : check_aesthetic_size d0 = false := by
        simp [check_aesthetic_size, hnone d0 (dataAt_mem hd0)]
      rcases hcase with rfl | rfl | ⟨dff, i, f, hdff, hc_chunk⟩
      · simp [circleRadius]
      · simp [circleRadius]
      · simp only [animated_frame_cmds, to_pixel, hflag, Bool.false_eq_true,
          if_false] at hc_chunk
        rcases List.mem_cons.mp hc_chunk with rfl | hc2
        · simp [circleRadius]
        · rcases List.mem_cons.mp hc2 with rfl | hc3
          · simp [circleRadius]
          · simp at hc3
    · obtain ⟨df, hdf, hcase⟩ :=
        draw_plot_mem_cases tdx tdy tdc tds s _ cmds htime c hcm
      have hflag : check_aesthetic_size df = false := by
        simp [check_aesthetic_size, hnone df (dataAt_mem hdf)]
      rcases hcase with rfl | ⟨_, i, hc_chunk⟩ | ⟨df0, hdf0, i, hc_chunk⟩
      · simp [circleRadius]
      · simp only [single_row_cmds, to_pixel, hflag, Bool.false_eq_true,
          if_false] at hc_chunk
        rcases List.mem_cons.mp hc_chunk with rfl | hc2
        · simp [circleRadius]
        · rcases List.mem_cons.mp hc2 with rfl | hc3
          · simp [circleRadius]
          · simp at hc3
      · simp only [blended_row_cmds, to_pixel, Pix4.blend, hflag,
          Bool.false_eq_true, if_false] at hc_chunk
        rcases List.mem_cons.mp hc_chunk with rfl | hc2
        · simp [circleRadius]
        · rcases List.mem_cons.mp hc2 with rfl | hc3
          · right
            simp only [circleRadius, Option.some.injEq]
            have := update_frame_info_weights s.times t
            simp only [mul_one]
            linarith
          · simp at hc3

/-- Witness for C8 on a series without color and size aesthetics. -/
theorem points_missing_aesthetic_defaults_witness :
    (∀ fr ∈ (⟨[⟨[0], [0], none, none⟩], [0]⟩ : PointsState).data,
      fr.color = none) ∧
    (∀ cmds c,
      (draw_animated id id id id ⟨[⟨[0], [0], none, none⟩], [0]⟩ = some cmds ∨
        ∃ t, draw_at_time id id id id ⟨[⟨[0], [0], none, none⟩], [0]⟩ t = some cmds) →
      c ∈ cmds → colorCoord c = none ∨ colorCoord c = some 0) :=
  ⟨by simp,
   (points_missing_aesthetic_defaults id id id id
      ⟨[⟨[0], [0], none, none⟩], [0]⟩).1 (by simp)⟩

end Trase
